import Mathlib

/-
Verification development for the `holm` file-system routing library.

The Python source is shallowly embedded in Lean:
- Python strings are embedded as `List Char` (`Str`).
- Synchronous and asynchronous functions are unified: every `await` point in
  the source corresponds to the value already being available in the embedding
  (the code awaits any awaitable result before using it, so the sync/async
  distinction is unobservable at the level of composed values).
- FastAPI dependencies that produce a value of type `τ` are embedded as the
  produced value itself (dependency resolution is an external collaborator).
- Exceptions are embedded via `Except`.

File map:
- `LayoutValue`, `combined_layout_factory`, `combine_layouts_to_dependency`,
  `empty_layout`, `build_layout_chain`, `path_operation` embed
  `src/holm/modules/_layout.py` and `src/holm/app.py`.
- `AppNode`, `PackageInfo`, `AppNode.addFuel`, `app_build_tree` embed
  `src/holm/_model.py` and `src/holm/app.py` (the recursion of `AppNode.add`
  is fueled because the Python original can exhaust the interpreter stack on
  degenerate URLs; theorems quantify over sufficient fuel).
- `PackageInfo.from_marker_file`, `is_excluded`, `discovered_files` embed the
  URL derivation and package discovery.
- `get_metadata_dependency` embeds `src/holm/module_options/_metadata.py`.
- `import_module` embeds `PackageInfo.import_module`.
- `register_action` embeds `action._register_action` from
  `src/holm/module_options/_actions.py`.
-/

namespace Holm

/-- Python strings are embedded as lists of characters. -/
abbrev Str := List Char

/-! ## Layout composition (`src/holm/modules/_layout.py`)

A layout factory receives the props produced by the wrapped page or layout and
returns either a plain component or a component wrapped in the `without_layout`
marker. The component type is an abstract parameter `α`; `htmy`'s
`as_component_type` normalization is an abstract function `acct : α → α`
supplied as a parameter (it is an external collaborator of the core). -/

/-- Value domain for the result of a layout or page call: a plain component,
or a component wrapped in the stop-wrapping `without_layout` marker. -/
inductive LayoutValue (α : Type) where
  | comp (c : α)
  | without_layout (c : α)
  deriving DecidableEq, Repr

/-- A layout factory after dependency resolution and awaiting: props in,
`LayoutValue` out. -/
abbrev LayoutFactory (α : Type) := α → LayoutValue α

/-- The factory produced by `combined_layout_dep` inside
`combine_layouts_to_dependency`: evaluate `inner` on the props, await, return
the unwrapped component if the result carries the `without_layout` marker,
otherwise normalize with `as_component_type` (`acct`) and feed to `outer`. -/
def combined_layout_factory {α : Type} (acct : α → α)
    (outer inner : LayoutFactory α) (props : α) : LayoutValue α :=
  match inner props with
  | .without_layout c => .comp c
  | .comp c => outer (acct c)

/-- `combine_layouts_to_dependency(outer_dep, inner)`: if `inner` is `None`
the outer dependency is returned unchanged, otherwise the combined factory. -/
def combine_layouts_to_dependency {α : Type} (acct : α → α)
    (outer : LayoutFactory α) (inner : Option (LayoutFactory α)) : LayoutFactory α :=
  match inner with
  | none => outer
  | some i => combined_layout_factory acct outer i

/-- `empty_layout`: the factory that simply returns the received props. -/
def empty_layout {α : Type} (props : α) : LayoutValue α :=
  .comp props

/-- The layout chain accumulated by the recursion of `_build_api`
(`src/holm/app.py`): starting from `base`, each tree level from the root down
combines the inherited chain (as `outer`) with its own optional layout (as
`inner`). The list is ordered root first. -/
def build_layout_chain {α : Type} (acct : α → α) (base : LayoutFactory α) :
    List (Option (LayoutFactory α)) → LayoutFactory α
  | [] => base
  | l :: rest => build_layout_chain acct (combine_layouts_to_dependency acct base l) rest

/-- Direct evaluator for a chain of layouts listed deepest (innermost) first:
apply each layout in turn, stopping with the unwrapped component as soon as a
layout returns the `without_layout` marker, and handing the normalized value to
`base` if no layout stops the composition. -/
def run_layouts {α : Type} (acct : α → α) (base : LayoutFactory α) :
    List (LayoutFactory α) → α → LayoutValue α
  | [], props => base props
  | l :: rest, props =>
    match l props with
    | .without_layout c => .comp c
    | .comp c => run_layouts acct base rest (acct c)

/-! ## Page path operations (`src/holm/app.py`) -/

/-- The value produced by the page dependency in `_make_page_path_operation`:
a low-level response, a plain component, or a marker-wrapped component. -/
inductive PageValue (α ρ : Type) where
  | response (r : ρ)
  | comp (c : α)
  | without_layout (c : α)
  deriving DecidableEq, Repr

/-- The value returned by the path operation: either a response passed through
unchanged, or a rendered pair of component value and optional metadata. -/
inductive PathOperationResult (α ρ μ : Type) where
  | response (r : ρ)
  | rendered (c : LayoutValue α) (metadata : Option μ)
  deriving DecidableEq, Repr

/-- The path operation built by `_make_page_path_operation`: responses bypass
everything, a marker-wrapped page value bypasses the layout chain, and
otherwise the layout chain is applied to the normalized page value. -/
def path_operation {α ρ μ : Type} (acct : α → α) (layout : LayoutFactory α)
    (metadata : Option μ) (page : PageValue α ρ) : PathOperationResult α ρ μ :=
  match page with
  | .response r => .response r
  | .without_layout c => .rendered (.comp c) metadata
  | .comp c => .rendered (layout (acct c)) metadata

/-! ## Packages and the application tree (`src/holm/_model.py`)

`AppNode.add` mutates the tree in place; the embedding returns the updated
node. Python's recursion is fueled: `AppNode.add` can exhaust the interpreter
stack on degenerate URLs (for example a URL containing an empty segment that
reproduces the parent URL), which the embedding reports as `recursionError`. -/

/-- `PackageInfo` (`src/holm/_model.py`). The package directory is stored as
its path parts relative to the root directory (the root package has no
parts). -/
structure PackageInfo where
  package_dir : List Str
  package_name : Str
  url : Str
  deriving DecidableEq, Repr

/-- Python `str.startswith`. -/
def pyStartsWith (s p : Str) : Bool :=
  p.isPrefixOf s

/-- Python `str.removeprefix`. -/
def pyRemovePre (s p : Str) : Str :=
  if pyStartsWith s p then s.drop p.length else s

/-- Python `str.split(sep)` for a one-character separator and no limit. The
result is never empty; splitting the empty string yields `[[]]`, matching
Python's `"".split(sep) == [""]`. `AppNode.add` only reads index 1 of the
result of `split("/", 2)`, which agrees with index 1 of the unlimited split. -/
def pySplit (sep : Char) : Str → List Str
  | [] => [[]]
  | ch :: rest =>
    if ch = sep then [] :: pySplit sep rest
    else
      match pySplit sep rest with
      | [] => [[ch]]
      | s :: ss => (ch :: s) :: ss

/-- Errors raised by `AppNode.add` and its embedding: the `ValueError` for a
URL outside the subtree, the `ValueError` for a package already set at a URL,
the `IndexError` of `split("/", 2)[1]`, and stack exhaustion. -/
inductive AddError where
  | urlMismatch
  | duplicatePackage
  | indexError
  | recursionError
  deriving DecidableEq, Repr

/-- `AppNode` (`src/holm/_model.py`): full URL, children keyed by URL segment
(in insertion order, as a Python dict), and the optional owned package. -/
inductive AppNode where
  | mk (url : Str) (subtree : List (Str × AppNode)) (package : Option PackageInfo)

/-- The full URL of a node. -/
def AppNode.url : AppNode → Str
  | .mk u _ _ => u

/-- The children of a node. -/
def AppNode.subtree : AppNode → List (Str × AppNode)
  | .mk _ s _ => s

/-- The package owned by a node. -/
def AppNode.package : AppNode → Option PackageInfo
  | .mk _ _ p => p

/-- Python `dict.get` on an insertion-ordered association list. -/
def dictGet {β : Type} (l : List (Str × β)) (k : Str) : Option β :=
  match l with
  | [] => none
  | (k2, v) :: rest => if k2 = k then some v else dictGet rest k

/-- Python `dict.__setitem__` on an insertion-ordered association list:
replace the value in place if the key exists, append otherwise. -/
def dictSet {β : Type} (l : List (Str × β)) (k : Str) (v : β) : List (Str × β) :=
  match l with
  | [] => [(k, v)]
  | (k2, v2) :: rest => if k2 = k then (k, v) :: rest else (k2, v2) :: dictSet rest k v

/-- The `sub_url` computed by `AppNode.add`: the whole item URL at the root
node, the URL with the node's own URL prefix removed elsewhere. -/
def subUrl (self_url item_url : Str) : Str :=
  if self_url = ['/'] then item_url else pyRemovePre item_url self_url

/-- The `url_prefix` computed by `AppNode.add`: empty at the root node, the
node's own URL elsewhere. -/
def urlPre (self_url : Str) : Str :=
  if self_url = ['/'] then [] else self_url

/-- `AppNode.add` (`src/holm/_model.py`), with explicit recursion fuel. The
source binds one `child` variable from `subtree.get(first_segment)`; the
embedding matches on the lookup result and continues identically in both
branches. -/
def AppNode.addFuel : Nat → AppNode → PackageInfo → Except AddError AppNode
  | 0, _, _ => .error .recursionError
  | fuel + 1, .mk self_url subtree pkg, item =>
    if pyStartsWith item.url self_url = false then .error .urlMismatch
    else if item.url = self_url then
      match pkg with
      | some _ => .error .duplicatePackage
      | none => .ok (.mk self_url subtree (some item))
    else
      match (pySplit '/' (subUrl self_url item.url)).get? 1 with
      | none => .error .indexError
      | some seg =>
        match dictGet subtree ('/' :: seg) with
        | some c =>
          match AppNode.addFuel fuel c item with
          | .error e => .error e
          | .ok child2 => .ok (.mk self_url (dictSet subtree ('/' :: seg) child2) pkg)
        | none =>
          match AppNode.addFuel fuel (.mk (urlPre self_url ++ '/' :: seg) [] none) item with
          | .error e => .error e
          | .ok child2 => .ok (.mk self_url (dictSet subtree ('/' :: seg) child2) pkg)

/-- The fold of `_build_app_tree` (`src/holm/app.py`) over a node. -/
def app_build_tree (fuel : Nat) : AppNode → List PackageInfo → Except AddError AppNode
  | node, [] => .ok node
  | node, p :: ps =>
    match AppNode.addFuel fuel node p with
    | .error e => .error e
    | .ok node2 => app_build_tree fuel node2 ps

/-- `_build_app_tree` (`src/holm/app.py`): insert every package into a fresh
root node at `/`. -/
def build_app_tree (fuel : Nat) (ps : List PackageInfo) : Except AddError AppNode :=
  app_build_tree fuel (.mk ['/'] [] none) ps

mutual

/-- Whether every node of the tree that owns a package has the package's URL
equal to the node's URL. -/
def urlInvariant : AppNode → Bool
  | .mk url subtree pkg =>
    (match pkg with
      | none => true
      | some p => p.url == url)
    && urlInvariantList subtree

/-- List version of `urlInvariant` for the children of a node. -/
def urlInvariantList : List (Str × AppNode) → Bool
  | [] => true
  | (_, c) :: rest => urlInvariant c && urlInvariantList rest

end

mutual

/-- The number of nodes of the tree that own exactly the package `q`. -/
def countPkg (q : PackageInfo) : AppNode → Nat
  | .mk _ subtree pkg => (if pkg = some q then 1 else 0) + countPkgList q subtree

/-- List version of `countPkg` for the children of a node. -/
def countPkgList (q : PackageInfo) : List (Str × AppNode) → Nat
  | [] => 0
  | (_, c) :: rest => countPkg q c + countPkgList q rest

end

/-! ## URL derivation and package discovery
(`PackageInfo.from_marker_file` in `src/holm/_model.py`,
`_discover_app_packages` in `src/holm/app.py`) -/

/-- `AppConfig` (`src/holm/_model.py`), restricted to the fields the URL
derivation reads. -/
structure AppConfig where
  app_dir_name : Str
  app_url_prefix_length : Nat
  deriving DecidableEq, Repr

/-- The configuration built by `AppConfig.default` for a given application
directory name: the URL prefix length is the name length plus one, or zero
for an application not wrapped in a package. -/
def AppConfig.default_of (app_dir_name : Str) : AppConfig :=
  ⟨app_dir_name, if 0 < app_dir_name.length then app_dir_name.length + 1 else 0⟩

/-- Python `"/".join(parts)`. -/
def joinSlash : List Str → Str
  | [] => []
  | [s] => s
  | s :: rest => s ++ '/' :: joinSlash rest

/-- Python `str(path)` for a relative path given by its parts: `"."` for the
empty path, the parts joined by `/` otherwise. -/
def pathStr (parts : List Str) : Str :=
  if parts = [] then ['.'] else joinSlash parts

/-- Python `str.replace("/", ".")`. -/
def slashToDot (s : Str) : Str :=
  s.map fun ch => if ch = '/' then '.' else ch

/-- The dynamic-segment rewrite applied to each URL segment by
`PackageInfo.from_marker_file`: a segment of length above two that starts and
ends with an underscore becomes the brace-wrapped parameter form. -/
def dynamicSegment (p : Str) : Str :=
  if 2 < p.length ∧ p.head? = some '_' ∧ p.getLast? = some '_' then
    '\x7b' :: ((p.drop 1).dropLast ++ ['\x7d'])
  else p

/-- `PackageInfo.from_marker_file` (`src/holm/_model.py`): the marker file's
parent directory is given by its path parts relative to the root directory. -/
def PackageInfo.from_marker_file (package_dir : List Str) (config : AppConfig) :
    PackageInfo :=
  let package_dir_str := pathStr package_dir
  let url0 : Str :=
    if package_dir_str = ['.'] then ['/']
    else '/' :: package_dir_str.drop config.app_url_prefix_length
  { package_dir := package_dir
    package_name := slashToDot package_dir_str
    url := joinSlash ((pySplit '/' url0).map dynamicSegment) }

/-- A Python file found by `config.app_dir.rglob("*.py")`: the path parts of
its parent directory relative to the root directory, and the file stem. -/
structure DiscoveredFile where
  parts : List Str
  stem : Str
  deriving DecidableEq, Repr

/-- `is_excluded` from `_discover_app_packages` (`src/holm/app.py`): a path is
excluded when some part starts with an underscore without also ending with
one, or starts with a dot. -/
def is_excluded (parts : List Str) : Bool :=
  parts.any fun p =>
    (p.head? == some '_' && !(p.getLast? == some '_')) || p.head? == some '.'

/-- The filtering step of `_discover_app_packages`: keep the files whose stem
is a recognized module name and whose parent path is not excluded. The
`module_names` collection is imported from `holm.typing` in the source, whose
definition is not part of the snapshot, so the recognized-name set is a
parameter. -/
def discovered_files (module_names : List Str) (files : List DiscoveredFile) :
    List DiscoveredFile :=
  files.filter fun f => module_names.contains f.stem && !is_excluded f.parts

/-- `_discover_app_packages` composed with the package construction (the
source builds a set; the embedding keeps the list). -/
def discover_app_packages (config : AppConfig) (module_names : List Str)
    (files : List DiscoveredFile) : List PackageInfo :=
  (discovered_files module_names files).map
    fun f => PackageInfo.from_marker_file f.parts config

/-- The `__eq__` of the frozen dataclass `PackageInfo`: dataclass-generated
equality compares every field (the class overrides `__hash__` only, not
`__eq__`). -/
def PackageInfo.pyEq (a b : PackageInfo) : Bool :=
  a.package_dir == b.package_dir && a.package_name == b.package_name && a.url == b.url

/-! ## Metadata resolution (`src/holm/module_options/_metadata.py`) -/

/-- Classification of the `metadata` attribute of an owner object, following
the checks of `get_metadata_dependency` in order: attribute missing or
`None`, a static `Mapping`, a callable (already a dependency), or any other
value. -/
inductive MetadataAttr (μ δ : Type) where
  | absent
  | mapping (m : μ)
  | callable (d : δ)
  | other

/-- `get_metadata_dependency` (`src/holm/module_options/_metadata.py`): a
metadata dependency is embedded as a function from the request to the
optional mapping it produces. `empty_metadata_dep` produces `none`, a static
mapping becomes a constant dependency, a callable is returned unchanged, and
any other shape raises `ValueError`. -/
def get_metadata_dependency {μ ρ : Type}
    (attr : MetadataAttr μ (ρ → Option μ)) : Except Str (ρ → Option μ) :=
  match attr with
  | .absent => .ok fun _ => none
  | .mapping m => .ok fun _ => some m
  | .callable d => .ok d
  | .other => .error "Invalid metadata object".data

/-! ## Module import (`PackageInfo.import_module` in `src/holm/_model.py`) -/

/-- The observable outcome of `importlib.import_module` for a module of a
package: the module file does not exist, the import raises, or the import
succeeds with module value `m`. -/
inductive ModuleSource (M : Type) where
  | missing
  | importRaises
  | imports (m : M)

/-- `PackageInfo.import_module`: the result pairs the optional module with
the warnings logged. A missing file yields an absent module silently, a
failed import logs a warning and yields an absent module, and a module that
imports but fails the shape validation raises `ValueError`. -/
def import_module {M : Type} (src : ModuleSource M) (validate : M → Bool) :
    Except Str (Option M × List Str) :=
  match src with
  | .missing => .ok (none, [])
  | .importRaises => .ok (none, ["Failed to import module".data])
  | .imports m =>
    if validate m then .ok (some m, []) else .error "Invalid module".data

/-! ## Action registration (`src/holm/module_options/_actions.py`) -/

/-- The route arguments assembled by `action._register_action`: the
pass-through decorator arguments (methods, dependencies, deprecated) are an
opaque parameter `E`; the name, the tags and the suppressed response schema
are always set. -/
structure RouteArgs (E : Type) where
  extra : E
  name : Str
  tags : List Str
  response_model_suppressed : Bool

/-- `ActionDescriptor` (`src/holm/module_options/_actions.py`). -/
structure ActionDescriptor (A E M : Type) where
  action : A
  route_args : RouteArgs E
  use_layout : Bool
  metadata : Option M

/-- One application of an `action` decorator: the decorated function (with
its module and name) and the decorator arguments as `_register_action`
receives them. -/
structure ActionRegistration (A E M : Type) where
  func : A
  func_module : Str
  func_name : Str
  use_layout : Bool
  metadata : Option M
  path : Option Str
  tags : Option (List Str)
  extra : E

/-- The route path derived by `_register_action`: the explicit path when one
was given, otherwise `/` followed by the function name. -/
def actionPath {A E M : Type} (r : ActionRegistration A E M) : Str :=
  match r.path with
  | none => '/' :: r.func_name
  | some p => p

/-- The descriptor stored by `_register_action`: always sets the route name
`module.function`, the default `Action` tag when the caller supplied none,
and suppresses response-schema generation. -/
def actionDescriptor {A E M : Type} (r : ActionRegistration A E M) :
    ActionDescriptor A E M :=
  { action := r.func
    route_args :=
      { extra := r.extra
        name := r.func_module ++ '.' :: r.func_name
        tags := match r.tags with | none => ["Action".data] | some t => t
        response_model_suppressed := true }
    use_layout := r.use_layout
    metadata := r.metadata }

/-- `action._register_action`: store the descriptor in the owning module's
registry under the derived path, replacing any previous entry at that path
(Python dict item assignment); no error is raised on a collision. -/
def register_action {A E M : Type} (reg : List (Str × ActionDescriptor A E M))
    (r : ActionRegistration A E M) : List (Str × ActionDescriptor A E M) :=
  dictSet reg (actionPath r) (actionDescriptor r)

/-- The most recently registered event targeting a given path, if any. -/
def lastRegistered {A E M : Type} (events : List (ActionRegistration A E M))
    (path : Str) : Option (ActionRegistration A E M) :=
  events.foldl (fun acc e => if actionPath e = path then some e else acc) none

/-! ## Bridging the fold of `_build_api` with the direct evaluator -/

theorem run_layouts_append_one {α : Type} (acct : α → α) (base : LayoutFactory α)
    (l : LayoutFactory α) (ds : List (LayoutFactory α)) (props : α) :
    run_layouts acct (combined_layout_factory acct base l) ds props
      = run_layouts acct base (ds ++ [l]) props := by
  induction ds generalizing props with
  | nil =>
    simp only [run_layouts, combined_layout_factory, List.nil_append]
  | cons d ds ih =>
    simp only [run_layouts, List.cons_append]
    cases d props with
    | comp c => exact ih (acct c)
    | without_layout c => rfl

theorem build_layout_chain_eval {α : Type} (acct : α → α) (base : LayoutFactory α)
    (ls : List (Option (LayoutFactory α))) (props : α) :
    build_layout_chain acct base ls props
      = run_layouts acct base (ls.filterMap id).reverse props := by
  induction ls generalizing base with
  | nil => rfl
  | cons l rest ih =>
    cases l with
    | none =>
      simp only [build_layout_chain, combine_layouts_to_dependency]
      rw [ih base]
      congr 1
    | some f =>
      simp only [build_layout_chain, combine_layouts_to_dependency]
      rw [ih (combined_layout_factory acct base f), run_layouts_append_one]
      congr 1
      simp

/-- If running the (deepest-first) chain segment `ds1` against the probe base
that marks everything produces a plain component, then some layout of `ds1`
returned the stop marker; in that case the whole chain ignores everything
outward of `ds1`. -/
theorem run_layouts_stop {α : Type} (acct : α → α) (ds1 : List (LayoutFactory α))
    (props c : α)
    (h : run_layouts acct (fun p => LayoutValue.without_layout p) ds1 props = .comp c) :
    ∀ (base : LayoutFactory α) (ds2 : List (LayoutFactory α)),
      run_layouts acct base (ds1 ++ ds2) props = .comp c := by
  induction ds1 generalizing props with
  | nil => simp only [run_layouts] at h; simp at h
  | cons d ds ih =>
    intro base ds2
    simp only [run_layouts, List.cons_append] at h ⊢
    cases hd : d props with
    | without_layout c' => rw [hd] at h; exact h
    | comp c' =>
      rw [hd] at h
      exact ih (acct c') h base ds2

/-- C1: if an inner layout or the page returns the stop-wrapping marker, no
ancestor layout function affects the result for that request and the value
handed onward is exactly the unwrapped inner content: the page-level marker
bypasses the whole layout chain in the path operation, and a marker produced
inside the (deepest-first) segment `innerRev` of a layout chain fixes the
result of the full chain to the unwrapped component of the innermost marker,
for every choice of ancestor layouts `outers`. -/
theorem c1_without_layout_stops_ancestors (α ρ μ : Type) (acct : α → α)
    (innerRev : List (LayoutFactory α)) (props c : α)
    (hstop : run_layouts acct (fun p => LayoutValue.without_layout p) innerRev props
      = .comp c) :
    (∀ (outers : List (Option (LayoutFactory α))),
      build_layout_chain acct empty_layout (outers ++ innerRev.reverse.map some) props
        = .comp c)
    ∧ (∀ (layout : LayoutFactory α) (md : Option μ) (d : α),
        path_operation (ρ := ρ) acct layout md (PageValue.without_layout d)
          = .rendered (.comp d) md) := by
  constructor
  · intro outers
    rw [build_layout_chain_eval]
    have hsplit : (List.filterMap id (outers ++ innerRev.reverse.map some)).reverse
        = innerRev ++ (List.filterMap id outers).reverse := by
      simp
    rw [hsplit]
    exact run_layouts_stop acct innerRev props c hstop _ _
  · intro layout md d
    rfl

/-- Witness for C1: a two-level chain over `Nat` where the inner layout stops
composition; the outer layout (which would add 100) never affects the result. -/
theorem c1_without_layout_stops_ancestors_witness :
    build_layout_chain (fun (a : Nat) => a) empty_layout
        ([some (fun p => LayoutValue.comp (p + 100))]
          ++ ([fun p => LayoutValue.without_layout (p + 1)] :
              List (LayoutFactory Nat)).reverse.map some) 0
      = LayoutValue.comp 1 :=
  (c1_without_layout_stops_ancestors Nat Nat Nat (fun a => a)
      [fun p => LayoutValue.without_layout (p + 1)] 0 1 rfl).1
    [some (fun p => LayoutValue.comp (p + 100))]

/-- C2: in the absence of the stop-wrapping marker, layout composition is
associative in effect and strictly inside-out: both ways of bracketing the
combination of `inner`, `outer1` and `outer2` evaluate to the chain
`outer2 (outer1 (inner props))`, each intermediate result awaited and
normalized before being handed outward. -/
theorem c2_layout_composition_associative (α : Type) (acct : α → α)
    (outer2 outer1 inner : LayoutFactory α) (props a b : α)
    (h1 : inner props = .comp a) (h2 : outer1 (acct a) = .comp b) :
    combined_layout_factory acct (combined_layout_factory acct outer2 outer1) inner props
        = outer2 (acct b)
      ∧ combined_layout_factory acct outer2 (combined_layout_factory acct outer1 inner) props
        = outer2 (acct b) := by
  constructor
  · simp only [combined_layout_factory, h1, h2]
  · simp only [combined_layout_factory, h1, h2]

/-- Witness for C2: concrete layouts over `Nat` composed both ways. -/
theorem c2_layout_composition_associative_witness :
    combined_layout_factory (fun (a : Nat) => a)
        (combined_layout_factory (fun a => a) (fun p => LayoutValue.comp (p * 2))
          (fun p => LayoutValue.comp (p + 10)))
        (fun p => LayoutValue.comp (p + 3)) 4
      = LayoutValue.comp 34 :=
  (c2_layout_composition_associative Nat (fun a => a)
      (fun p => LayoutValue.comp (p * 2)) (fun p => LayoutValue.comp (p + 10))
      (fun p => LayoutValue.comp (p + 3)) 4 7 17 rfl rfl).1

/-- C8: combining an outer layout dependency with an absent (`None`) inner
layout returns the outer dependency itself unchanged. -/
theorem c8_absent_inner_returns_outer (α : Type) (acct : α → α)
    (outer : LayoutFactory α) :
    combine_layouts_to_dependency acct outer none = outer :=
  rfl

/-! ## Tree lemmas -/

theorem pyStartsWith_refl (s : Str) : pyStartsWith s s = true := by
  induction s with
  | nil => rfl
  | cons a l ih =>
    simp only [pyStartsWith, List.isPrefixOf] at ih ⊢
    simp [ih]

theorem url_mk (u : Str) (s : List (Str × AppNode)) (p : Option PackageInfo) :
    (AppNode.mk u s p).url = u := rfl

theorem dictGet_dictSet_self {β : Type} (l : List (Str × β)) (k : Str) (v : β) :
    dictGet (dictSet l k v) k = some v := by
  induction l with
  | nil => simp [dictGet, dictSet]
  | cons h rest ih =>
    obtain ⟨k2, v2⟩ := h
    by_cases hk : k2 = k
    · simp [dictGet, dictSet, hk]
    · simp [dictGet, dictSet, hk, ih]

theorem urlInvariant_dictGet (l : List (Str × AppNode)) (k : Str) (c : AppNode)
    (hl : urlInvariantList l = true) (hg : dictGet l k = some c) :
    urlInvariant c = true := by
  induction l with
  | nil => simp [dictGet] at hg
  | cons h rest ih =>
    obtain ⟨k2, v2⟩ := h
    simp only [urlInvariantList, Bool.and_eq_true] at hl
    simp only [dictGet] at hg
    split at hg
    · cases hg; exact hl.1
    · exact ih hl.2 hg

theorem urlInvariantList_dictSet (l : List (Str × AppNode)) (k : Str) (v : AppNode)
    (hl : urlInvariantList l = true) (hv : urlInvariant v = true) :
    urlInvariantList (dictSet l k v) = true := by
  induction l with
  | nil => simp [dictSet, urlInvariantList, hv]
  | cons h rest ih =>
    obtain ⟨k2, v2⟩ := h
    simp only [urlInvariantList, Bool.and_eq_true] at hl
    by_cases hk : k2 = k
    · simp [dictSet, hk, urlInvariantList, hv, hl.2]
    · simp [dictSet, hk, urlInvariantList, hl.1, ih hl.2]

theorem countPkgList_dictSet_some (q : PackageInfo) (l : List (Str × AppNode))
    (k : Str) (v c : AppNode) (hg : dictGet l k = some c) :
    countPkgList q (dictSet l k v) + countPkg q c = countPkgList q l + countPkg q v := by
  induction l with
  | nil => simp [dictGet] at hg
  | cons h rest ih =>
    obtain ⟨k2, v2⟩ := h
    simp only [dictGet] at hg
    by_cases hk : k2 = k
    · rw [if_pos hk] at hg
      cases hg
      simp only [dictSet, if_pos hk, countPkgList]
      omega
    · rw [if_neg hk] at hg
      simp only [dictSet, if_neg hk, countPkgList]
      have := ih hg
      omega

theorem countPkgList_dictSet_none (q : PackageInfo) (l : List (Str × AppNode))
    (k : Str) (v : AppNode) (hg : dictGet l k = none) :
    countPkgList q (dictSet l k v) = countPkgList q l + countPkg q v := by
  induction l with
  | nil => simp [dictSet, countPkgList]
  | cons h rest ih =>
    obtain ⟨k2, v2⟩ := h
    simp only [dictGet] at hg
    by_cases hk : k2 = k
    · rw [if_pos hk] at hg
      cases hg
    · rw [if_neg hk] at hg
      simp only [dictSet, if_neg hk, countPkgList]
      have := ih hg
      omega

/-- Main postcondition of a successful `AppNode.add`: the node URL is
unchanged, the URL invariant is preserved, and exactly one node owning the
inserted package is added while counts for every other package are kept. -/
theorem addFuel_ok (fuel : Nat) (node t : AppNode) (item : PackageInfo)
    (h : AppNode.addFuel fuel node item = .ok t) :
    t.url = node.url
    ∧ (urlInvariant node = true → urlInvariant t = true)
    ∧ (∀ q, countPkg q t = countPkg q node + (if q = item then 1 else 0)) := by
  induction fuel generalizing node t with
  | zero => exact Except.noConfusion h
  | succ fuel ih =>
    obtain ⟨self_url, subtree, pkg⟩ := node
    simp only [AppNode.addFuel] at h
    split at h
    · exact Except.noConfusion h
    split at h
    · rename_i hsw hequrl
      split at h
      · exact Except.noConfusion h
      · cases h
        refine ⟨rfl, ?_, ?_⟩
        · intro hinv
          simp only [urlInvariant, Bool.and_eq_true] at hinv ⊢
          refine ⟨?_, hinv.2⟩
          simp [hequrl]
        · intro q
          simp only [countPkg, url_mk]
          by_cases hq : q = item
          · subst hq
            simp
            omega
          · have h1 : (some item = some q) = False := by
              simp
              intro he
              exact hq he.symm
            simp [hq, h1]
    · rename_i hsw hnequrl
      split at h
      · exact Except.noConfusion h
      rename_i seg hseg
      split at h
      · rename_i c hget
        split at h
        · exact Except.noConfusion h
        rename_i child2 hrec
        cases h
        obtain ⟨ihu, ihinv, ihcnt⟩ := ih c child2 hrec
        refine ⟨rfl, ?_, ?_⟩
        · intro hinv
          simp only [urlInvariant, Bool.and_eq_true] at hinv ⊢
          exact ⟨hinv.1, urlInvariantList_dictSet _ _ _ hinv.2
            (ihinv (urlInvariant_dictGet _ _ _ hinv.2 hget))⟩
        · intro q
          simp only [countPkg]
          have hc := countPkgList_dictSet_some q subtree ('/' :: seg) child2 c hget
          have := ihcnt q
          omega
      · rename_i hget
        split at h
        · exact Except.noConfusion h
        rename_i child2 hrec
        cases h
        obtain ⟨ihu, ihinv, ihcnt⟩ := ih _ child2 hrec
        refine ⟨rfl, ?_, ?_⟩
        · intro hinv
          simp only [urlInvariant, Bool.and_eq_true] at hinv ⊢
          refine ⟨hinv.1, urlInvariantList_dictSet _ _ _ hinv.2 (ihinv ?_)⟩
          simp [urlInvariant, urlInvariantList]
        · intro q
          simp only [countPkg]
          have hc := countPkgList_dictSet_none q subtree ('/' :: seg) child2 hget
          have := ihcnt q
          have hfresh : countPkg q (AppNode.mk (urlPre self_url ++ '/' :: seg) [] none) = 0 := by
            simp [countPkg, countPkgList]
          omega

theorem app_build_tree_ok (fuel : Nat) (ps : List PackageInfo) (node t : AppNode)
    (h : app_build_tree fuel node ps = .ok t) :
    (urlInvariant node = true → urlInvariant t = true)
    ∧ (∀ q, countPkg q t = countPkg q node + ps.count q) := by
  induction ps generalizing node with
  | nil =>
    cases h
    exact ⟨fun hv => hv, fun q => by simp⟩
  | cons p ps ih =>
    simp only [app_build_tree] at h
    split at h
    · exact Except.noConfusion h
    rename_i node2 hadd
    obtain ⟨ihinv, ihcnt⟩ := ih node2 h
    obtain ⟨_, hinv, hcnt⟩ := addFuel_ok fuel node node2 p hadd
    refine ⟨fun hv => ihinv (hinv hv), fun q => ?_⟩
    have h1 := ihcnt q
    have h2 := hcnt q
    have h3 : (p :: ps).count q = ps.count q + (if q = p then 1 else 0) := by
      simp only [List.count_cons, beq_iff_eq]
      rcases eq_or_ne p q with he | he
      · simp [he]
      · simp [he, Ne.symm he]
    omega

/-- C3: building the tree from packages with pairwise distinct URLs yields a
tree in which every node owning a package has the package URL equal to the
node URL, and every inserted package is owned by exactly one node. -/
theorem c3_build_tree_well_placed (fuel : Nat) (ps : List PackageInfo) (t : AppNode)
    (hdistinct : ps.Pairwise (fun a b => a.url ≠ b.url))
    (hbuild : build_app_tree fuel ps = .ok t) :
    urlInvariant t = true ∧ ∀ p ∈ ps, countPkg p t = 1 := by
  obtain ⟨hinv, hcnt⟩ := app_build_tree_ok fuel ps _ t hbuild
  refine ⟨hinv rfl, fun p hp => ?_⟩
  have hnodup : ps.Nodup := hdistinct.imp fun hab => by
    intro he
    exact hab (he ▸ rfl)
  have hcount1 : ps.count p = 1 := List.count_eq_one_of_mem hnodup hp
  have h0 : countPkg p (AppNode.mk ['/'] [] none) = 0 := by
    simp [countPkg, countPkgList]
  have := hcnt p
  omega

/-- C4: once a package is inserted, inserting a second package with the same
URL into the resulting tree fails with the duplicate-package configuration
error; and a root node with no package is legal (the empty build yields it). -/
theorem c4_duplicate_url_rejected (fuel : Nat) (node t1 : AppNode)
    (p1 p2 : PackageInfo) (hurl : p1.url = p2.url)
    (h1 : AppNode.addFuel fuel node p1 = .ok t1) :
    AppNode.addFuel fuel t1 p2 = .error .duplicatePackage
    ∧ build_app_tree fuel [] = .ok (AppNode.mk ['/'] [] none) := by
  refine ⟨?_, ?_⟩
  · induction fuel generalizing node t1 with
    | zero => exact Except.noConfusion h1
    | succ fuel ih =>
      obtain ⟨self_url, subtree, pkg⟩ := node
      simp only [AppNode.addFuel] at h1
      split at h1
      · exact Except.noConfusion h1
      split at h1
      · rename_i hsw hequrl
        split at h1
        · exact Except.noConfusion h1
        cases h1
        have hp2 : p2.url = self_url := hurl ▸ hequrl
        simp [AppNode.addFuel, hp2, pyStartsWith_refl]
      · rename_i hsw hnequrl
        split at h1
        · exact Except.noConfusion h1
        rename_i seg hseg
        have hswt : pyStartsWith p1.url self_url = true := by
          revert hsw
          cases pyStartsWith p1.url self_url <;> simp
        split at h1
        · rename_i c hget
          split at h1
          · exact Except.noConfusion h1
          rename_i child2 hrec
          cases h1
          have hih := ih c child2 hrec
          simp only [AppNode.addFuel, ← hurl, hswt, Bool.true_eq_false, if_false,
            if_neg hnequrl, hseg, dictGet_dictSet_self, hih]
        · rename_i hget
          split at h1
          · exact Except.noConfusion h1
          rename_i child2 hrec
          cases h1
          have hih := ih _ child2 hrec
          simp only [AppNode.addFuel, ← hurl, hswt, Bool.true_eq_false, if_false,
            if_neg hnequrl, hseg, dictGet_dictSet_self, hih]
  · rfl

/-- Witness for C3: three packages at `/a`, `/a/b` and `/c/d`; the build
creates the intermediate `/c` node without a package, places every package at
the node with its URL, and each package is owned by exactly one node. -/
theorem c3_build_tree_well_placed_witness :
    urlInvariant (AppNode.mk "/".data
      [("/a".data, AppNode.mk "/a".data
          [("/b".data, AppNode.mk "/a/b".data []
              (some ⟨[['a'], ['b']], "a.b".data, "/a/b".data⟩))]
          (some ⟨[['a']], "a".data, "/a".data⟩)),
       ("/c".data, AppNode.mk "/c".data
          [("/d".data, AppNode.mk "/c/d".data []
              (some ⟨[['c'], ['d']], "c.d".data, "/c/d".data⟩))]
          none)]
      none) = true
    ∧ countPkg ⟨[['a']], "a".data, "/a".data⟩ (AppNode.mk "/".data
      [("/a".data, AppNode.mk "/a".data
          [("/b".data, AppNode.mk "/a/b".data []
              (some ⟨[['a'], ['b']], "a.b".data, "/a/b".data⟩))]
          (some ⟨[['a']], "a".data, "/a".data⟩)),
       ("/c".data, AppNode.mk "/c".data
          [("/d".data, AppNode.mk "/c/d".data []
              (some ⟨[['c'], ['d']], "c.d".data, "/c/d".data⟩))]
          none)]
      none) = 1 := by
  have h := c3_build_tree_well_placed 5
    [⟨[['a']], "a".data, "/a".data⟩, ⟨[['a'], ['b']], "a.b".data, "/a/b".data⟩,
      ⟨[['c'], ['d']], "c.d".data, "/c/d".data⟩]
    (AppNode.mk "/".data
      [("/a".data, AppNode.mk "/a".data
          [("/b".data, AppNode.mk "/a/b".data []
              (some ⟨[['a'], ['b']], "a.b".data, "/a/b".data⟩))]
          (some ⟨[['a']], "a".data, "/a".data⟩)),
       ("/c".data, AppNode.mk "/c".data
          [("/d".data, AppNode.mk "/c/d".data []
              (some ⟨[['c'], ['d']], "c.d".data, "/c/d".data⟩))]
          none)]
      none)
    (by decide) rfl
  exact ⟨h.1, h.2 _ (by decide)⟩

/-- Witness for C4: after inserting a package at `/a` into the empty root,
inserting a different package with the same URL fails with the
duplicate-package error. -/
theorem c4_duplicate_url_rejected_witness :
    AppNode.addFuel 5
        (AppNode.mk "/".data
          [("/a".data, AppNode.mk "/a".data [] (some ⟨[['a']], "a".data, "/a".data⟩))]
          none)
        ⟨[['z']], "z".data, "/a".data⟩
      = .error .duplicatePackage
    ∧ build_app_tree 5 [] = .ok (AppNode.mk ['/'] [] none) :=
  c4_duplicate_url_rejected 5 (AppNode.mk "/".data [] none) _
    ⟨[['a']], "a".data, "/a".data⟩ ⟨[['z']], "z".data, "/a".data⟩ rfl rfl

/-! ## Split and join lemmas for the URL derivation -/

theorem joinSlash_cons (s : Str) (rest : List Str) (h : rest ≠ []) :
    joinSlash (s :: rest) = s ++ '/' :: joinSlash rest := by
  cases rest with
  | nil => exact absurd rfl h
  | cons t ts => rfl

theorem pySplit_no_sep (sep : Char) (s : Str) (h : sep ∉ s) :
    pySplit sep s = [s] := by
  induction s with
  | nil => rfl
  | cons ch rest ih =>
    simp only [List.mem_cons, not_or] at h
    have hcs : ¬(ch = sep) := fun hc => h.1 hc.symm
    simp [pySplit, if_neg hcs, ih h.2]

theorem pySplit_append (sep : Char) (s t : Str) (h : sep ∉ s) :
    pySplit sep (s ++ sep :: t) = s :: pySplit sep t := by
  induction s with
  | nil => simp [pySplit]
  | cons ch rest ih =>
    simp only [List.mem_cons, not_or] at h
    have hcs : ¬(ch = sep) := fun hc => h.1 hc.symm
    simp [List.cons_append, pySplit, List.append_eq, if_neg hcs, ih h.2]

theorem pySplit_join (segs : List Str) (hne : segs ≠ [])
    (h : ∀ s ∈ segs, '/' ∉ s) :
    pySplit '/' (joinSlash segs) = segs := by
  induction segs with
  | nil => exact absurd rfl hne
  | cons s rest ih =>
    cases rest with
    | nil => exact pySplit_no_sep '/' s (h s (by simp))
    | cons t ts =>
      rw [joinSlash_cons s (t :: ts) (by simp)]
      rw [pySplit_append '/' s (joinSlash (t :: ts)) (h s (by simp))]
      rw [ih (by simp) fun x hx => h x (List.mem_cons_of_mem s hx)]

/-- C5: the derived URL of a package under the application directory is the
slash-joined list of its segments with the dynamic-segment rewrite applied to
each, prefixed with `/`; the application's own package maps to `/`; and any
file whose parent path contains a segment that starts with an underscore
without ending with one, or starts with a dot, is dropped by discovery. -/
theorem c5_url_derivation_and_exclusion (name : Str) (segs parts : List Str)
    (stem p : Str) (module_names : List Str) (files : List DiscoveredFile)
    (hname_ne : name ≠ []) (hname_dot : name ≠ ['.'])
    (hsegs : ∀ s ∈ segs, '/' ∉ s)
    (hp : p ∈ parts)
    (hbad : (p.head? = some '_' ∧ p.getLast? ≠ some '_') ∨ p.head? = some '.') :
    (PackageInfo.from_marker_file (name :: segs) (AppConfig.default_of name)).url
        = '/' :: joinSlash (segs.map dynamicSegment)
    ∧ (PackageInfo.from_marker_file [name] (AppConfig.default_of name)).url = ['/']
    ∧ DiscoveredFile.mk parts stem ∉ discovered_files module_names files := by
  have hlen : 0 < name.length := List.length_pos.mpr hname_ne
  have hpre : (AppConfig.default_of name).app_url_prefix_length = name.length + 1 := by
    simp [AppConfig.default_of, hlen]
  have hdropself : name.drop (name.length + 1) = [] :=
    List.drop_eq_nil_of_le (by omega)
  have part2 : (PackageInfo.from_marker_file [name] (AppConfig.default_of name)).url
      = ['/'] := by
    simp only [PackageInfo.from_marker_file, pathStr,
      if_neg (by simp : ¬([name] = ([] : List Str))), joinSlash,
      if_neg hname_dot, hpre, hdropself]
    rfl
  refine ⟨?_, part2, ?_⟩
  · cases segs with
    | nil => simpa using part2
    | cons t ts =>
      have hjoin : joinSlash (name :: t :: ts) = (name ++ ['/']) ++ joinSlash (t :: ts) := by
        rw [joinSlash_cons name (t :: ts) (by simp)]
        simp
      have hnd : joinSlash (name :: t :: ts) ≠ ['.'] := by
        rw [hjoin]
        intro hcontra
        have := congrArg List.length hcontra
        simp at this
        omega
      simp only [PackageInfo.from_marker_file, pathStr,
        if_neg (by simp : ¬(name :: t :: ts = ([] : List Str))), if_neg hnd, hpre]
      rw [hjoin]
      have hlen2 : name.length + 1 = (name ++ ['/']).length := by simp
      rw [hlen2, List.drop_left]
      have hsplit1 : pySplit '/' ('/' :: joinSlash (t :: ts))
          = [] :: pySplit '/' (joinSlash (t :: ts)) := by
        simp [pySplit]
      rw [hsplit1, pySplit_join (t :: ts) (by simp)
        fun x hx => hsegs x hx]
      have hmapne : (t :: ts).map dynamicSegment ≠ [] := by simp
      rw [List.map_cons]
      rw [show dynamicSegment ([] : Str) = [] from rfl]
      rw [joinSlash_cons [] ((t :: ts).map dynamicSegment) hmapne]
      simp
  · intro hmem
    have hex : is_excluded parts = true := by
      simp only [is_excluded, List.any_eq_true]
      refine ⟨p, hp, ?_⟩
      rcases hbad with ⟨h1, h2⟩ | h1
      · simp [h1, h2]
      · simp [h1]
    simp only [discovered_files, List.mem_filter, Bool.and_eq_true] at hmem
    rw [hex] at hmem
    simp at hmem

/-- Witness for C5: under application directory `app`, the package at
`app/user/_id_` derives the URL `/user/{id}`, the package `app` itself maps
to `/`, and a file under a `_private` directory is dropped by discovery. -/
theorem c5_url_derivation_and_exclusion_witness :
    (PackageInfo.from_marker_file ["app".data, "user".data, "_id_".data]
        (AppConfig.default_of "app".data)).url = "/user/\x7bid\x7d".data
    ∧ (PackageInfo.from_marker_file ["app".data] (AppConfig.default_of "app".data)).url
        = "/".data
    ∧ DiscoveredFile.mk ["app".data, "_private".data] "page".data
        ∉ discovered_files ["page".data]
            [DiscoveredFile.mk ["app".data, "_private".data] "page".data] := by
  have h := c5_url_derivation_and_exclusion "app".data ["user".data, "_id_".data]
    ["app".data, "_private".data] "page".data "_private".data ["page".data]
    [DiscoveredFile.mk ["app".data, "_private".data] "page".data]
    (by decide) (by decide) (by decide) (by decide) (by decide)
  exact ⟨h.1.trans (by decide), h.2.1, h.2.2⟩

/-- C6: the metadata resolver returns the `None`-producing dependency for an
absent attribute, a constant dependency producing the mapping for a static
mapping, the metadata value itself for a callable, and fails with
`ValueError` for any other shape. -/
theorem c6_metadata_resolution (μ ρ : Type) (m : μ) (d : ρ → Option μ) :
    get_metadata_dependency (μ := μ) (ρ := ρ) .absent = .ok (fun _ => none)
    ∧ get_metadata_dependency (ρ := ρ) (.mapping m) = .ok (fun _ => some m)
    ∧ get_metadata_dependency (.callable d) = .ok d
    ∧ get_metadata_dependency (μ := μ) (ρ := ρ) .other
        = .error "Invalid metadata object".data :=
  ⟨rfl, rfl, rfl, rfl⟩

/-- C7: a module whose import raises is reported absent together with a
logged warning, without an error aborting discovery, while a module that
imports but fails its shape validation raises `ValueError` immediately. -/
theorem c7_import_error_vs_validation_error (M : Type) (m : M)
    (validate : M → Bool) (hv : validate m = false) :
    import_module (M := M) .importRaises validate
        = .ok (none, ["Failed to import module".data])
    ∧ import_module (.imports m) validate = .error "Invalid module".data := by
  refine ⟨rfl, ?_⟩
  simp [import_module, hv]

/-- Witness for C7 at a concrete module type and failing validator. -/
theorem c7_import_error_vs_validation_error_witness :
    import_module (M := Nat) .importRaises (fun _ => false)
        = .ok (none, ["Failed to import module".data])
    ∧ import_module (M := Nat) (.imports 0) (fun _ => false)
        = .error "Invalid module".data :=
  c7_import_error_vs_validation_error Nat 0 (fun _ => false) rfl

/-- C9 counterexample: two `PackageInfo` values with the same import name but
different directories and URLs are unequal under the dataclass-generated
equality, so "equal iff import names match" fails on the code. -/
theorem c9_name_equality_counterexample :
    ¬ (PackageInfo.pyEq ⟨[['a']], ['p'], "/a".data⟩ ⟨[['b']], ['p'], "/b".data⟩ = true
        ↔ (PackageInfo.mk [['a']] ['p'] "/a".data).package_name
            = (PackageInfo.mk [['b']] ['p'] "/b".data).package_name) := by
  decide

/-- C9 (amended): two `PackageInfo` instances are equal precisely when the
package directory, the import name and the URL all match (dataclass equality
compares every field; only the hash is restricted to the import name). -/
theorem c9_dataclass_equality_all_fields (a b : PackageInfo) :
    PackageInfo.pyEq a b = true
      ↔ a.package_dir = b.package_dir ∧ a.package_name = b.package_name
          ∧ a.url = b.url := by
  simp [PackageInfo.pyEq, and_assoc]

/-! ## Action registry lemmas -/

theorem dictGet_dictSet_ne {β : Type} (l : List (Str × β)) (k k2 : Str) (v : β)
    (h : k2 ≠ k) : dictGet (dictSet l k v) k2 = dictGet l k2 := by
  induction l with
  | nil =>
    have hk : ¬(k = k2) := fun hh => h hh.symm
    simp [dictGet, dictSet, hk]
  | cons hd rest ih =>
    obtain ⟨k3, v3⟩ := hd
    by_cases hk : k3 = k
    · subst hk
      have hk2 : ¬(k3 = k2) := fun hh => h hh.symm
      simp [dictSet, dictGet, hk2]
    · simp only [dictSet, if_neg hk, dictGet]
      by_cases hk2 : k3 = k2
      · simp [hk2]
      · simp [hk2, ih]

theorem lastRegistered_acc {A E M : Type} (events : List (ActionRegistration A E M))
    (path : Str) (acc : Option (ActionRegistration A E M)) :
    events.foldl (fun acc2 e => if actionPath e = path then some e else acc2) acc
      = match lastRegistered events path with
        | some x => some x
        | none => acc := by
  induction events generalizing acc with
  | nil => rfl
  | cons e evs ih =>
    simp only [lastRegistered, List.foldl_cons]
    rw [ih, ih]
    cases hl : lastRegistered evs path with
    | some x => rfl
    | none =>
      by_cases hp : actionPath e = path
      · simp [hp]
      · simp [hp]

/-- C10: registering an action under a path that is already present in the
module's registry silently replaces the stored descriptor: after any sequence
of decorator applications, the registry maps each path to exactly the
descriptor of the most recent registration targeting that path, keeping the
prior registry entry only for paths never targeted, and no error is raised
for a path collision. -/
theorem c10_action_path_collision_replaces (A E M : Type)
    (reg : List (Str × ActionDescriptor A E M))
    (events : List (ActionRegistration A E M)) (path : Str) :
    dictGet (events.foldl register_action reg) path
      = match lastRegistered events path with
        | some e => some (actionDescriptor e)
        | none => dictGet reg path := by
  induction events generalizing reg with
  | nil => rfl
  | cons e evs ih =>
    simp only [List.foldl_cons, lastRegistered]
    rw [ih (register_action reg e), lastRegistered_acc]
    cases hl : lastRegistered evs path with
    | some x => rfl
    | none =>
      by_cases hp : actionPath e = path
      · simp [register_action, hp, dictGet_dictSet_self]
      · simp only [if_neg hp, register_action]
        exact dictGet_dictSet_ne _ _ _ _ fun hh => hp hh.symm

end Holm
